import Mathlib

/-!
Verification of the dinocheck orchestration-and-cache engine

Shallow embedding of the dinocheck/dinocrit analysis pipeline:
issue data model and scoring (`src/dinocrit/core/scoring.py`,
`src/dinocrit/core/types/`), schema migrations
(`src/dinocheck/core/migrations/`), pack composition
(`src/dinocheck/packs/loader.py`) and the orchestration engine
(`src/dinocheck/core/engine.py`).  Components whose source files are
absent from the repository snapshot (the SQLite cache store and the
content hasher) are modelled from the specification; their doc
comments say so explicitly.
-/

/- ===================== Data model =====================
   From `dinocrit/core/types/` (issue_level.py, location.py, issue.py).
   The severity enumeration and the issue record.  The float-valued
   `confidence` field is not modelled (no verified property depends on
   it); all other fields carried by an Issue are kept. -/

inductive IssueLevel where
  | blocker
  | critical
  | major
  | minor
  | info
deriving DecidableEq, Repr

/-- The string value of the severity enum member (`IssueLevel.value`). -/
def IssueLevel.value : IssueLevel → String
  | .blocker => "blocker"
  | .critical => "critical"
  | .major => "major"
  | .minor => "minor"
  | .info => "info"

structure Location where
  path : String
  start_line : Nat
  end_line : Option Nat
deriving DecidableEq, Repr

structure Issue where
  rule_id : String
  level : IssueLevel
  location : Location
  title : String
  why : String
  do_actions : List String
  pack : String
  source : String
  tags : List String
  snippet : Option String
  context : Option String
deriving DecidableEq, Repr

/-- Modelled from the spec: the derived identity of a finding
(`Issue.issue_id`, defined in `dinocrit/core/types/issue.py`, which is
absent from the sources).  The spec requires it to be a pure function
of (rule id, location, title). -/
def Issue.issue_id (i : Issue) : String × String × Nat × String :=
  (i.rule_id, i.location.path, i.location.start_line, i.title)

/- ===================== Scoring =====================
   From `src/dinocrit/core/scoring.py`. -/

/-- Weights dictionary `LEVEL_WEIGHTS`; `dict.get(level, 0)` is total on the enum. -/
def LEVEL_WEIGHTS : IssueLevel → Int
  | .blocker => 25
  | .critical => 15
  | .major => 8
  | .minor => 3
  | .info => 0

def DEFAULT_FAIL_LEVELS : List IssueLevel :=
  [IssueLevel.blocker, IssueLevel.critical, IssueLevel.major]

def DEFAULT_SCORE_THRESHOLD : Int := 70

/-- Model of `calculate_score(issues)` from scoring.py. -/
def calculate_score (issues : List Issue) : Int :=
  if issues = [] then 100
  else
    let penalty := (issues.map (fun i => LEVEL_WEIGHTS i.level)).sum
    max 0 (100 - penalty)

/-- Model of `check_gate(issues, fail_levels, score_threshold)` from scoring.py.
The Python defaults (`None` arguments) are `DEFAULT_FAIL_LEVELS` and
`DEFAULT_SCORE_THRESHOLD`; callers of the model pass them explicitly. -/
def check_gate (issues : List Issue) (fail_levels : List IssueLevel)
    (score_threshold : Int) : Bool × List String :=
  let reasons := fail_levels.foldl (fun rs level =>
    let count := issues.countP (fun i => i.level = level)
    if count > 0 then
      rs ++ [toString count ++ " " ++ level.value ++ " issue(s)"]
    else rs) []
  let score := calculate_score issues
  let reasons :=
    if score < score_threshold then
      reasons ++ ["Score " ++ toString score ++ " below threshold " ++
        toString score_threshold]
    else reasons
  (reasons.length == 0, reasons)

/-- A concrete issue at a given severity, used to evaluate the model. -/
def mkIssue (lvl : IssueLevel) : Issue :=
  { rule_id := "test/rule"
    level := lvl
    location := { path := "test.py", start_line := 1, end_line := none }
    title := "Test issue"
    why := "Test reason"
    do_actions := ["Fix it"]
    pack := "test"
    source := "llm"
    tags := []
    snippet := none
    context := none }

/- Helper lemmas about the severity penalty. -/

lemma penalty_nonneg (issues : List Issue) :
    0 ≤ (issues.map (fun i => LEVEL_WEIGHTS i.level)).sum := by
  induction issues with
  | nil => simp
  | cons i rest ih =>
    simp only [List.map_cons, List.sum_cons]
    have hw : 0 ≤ LEVEL_WEIGHTS i.level := by
      cases i.level <;> simp [LEVEL_WEIGHTS]
    omega

lemma calculate_score_eq_max (issues : List Issue) :
    calculate_score issues
      = max 0 (100 - (issues.map (fun i => LEVEL_WEIGHTS i.level)).sum) := by
  by_cases h : issues = []
  · subst h; simp [calculate_score]
  · simp [calculate_score, h]

lemma penalty_minor_info (issues : List Issue)
    (h : ∀ i ∈ issues, i.level = IssueLevel.minor ∨ i.level = IssueLevel.info) :
    (issues.map (fun i => LEVEL_WEIGHTS i.level)).sum
      = 3 * (issues.countP (fun i => i.level = IssueLevel.minor)) := by
  induction issues with
  | nil => simp
  | cons i rest ih =>
    have hi := h i (List.mem_cons_self i rest)
    have hrest := fun j hj => h j (List.mem_cons_of_mem i hj)
    simp only [List.map_cons, List.sum_cons, List.countP_cons]
    rw [ih hrest]
    rcases hi with hm | hm <;> rw [hm] <;>
      simp only [LEVEL_WEIGHTS] <;> simp <;> push_cast <;> ring

/-- C5: `calculate_score` is a pure total function into [0,100], equal to
`max 0 (100 - Σ weights)` with weights blocker=25, critical=15, major=8,
minor=3, info=0; the empty list yields 100, one blocker 75, one critical 85,
one major 92, one minor 97, one info 100, and ten blockers yield 0. -/
theorem calculate_score_spec :
    (∀ issues : List Issue,
       calculate_score issues
         = max 0 (100 - (issues.map (fun i => LEVEL_WEIGHTS i.level)).sum)
       ∧ 0 ≤ calculate_score issues ∧ calculate_score issues ≤ 100)
    ∧ calculate_score [] = 100
    ∧ calculate_score [mkIssue IssueLevel.blocker] = 75
    ∧ calculate_score [mkIssue IssueLevel.critical] = 85
    ∧ calculate_score [mkIssue IssueLevel.major] = 92
    ∧ calculate_score [mkIssue IssueLevel.minor] = 97
    ∧ calculate_score [mkIssue IssueLevel.info] = 100
    ∧ calculate_score (List.replicate 10 (mkIssue IssueLevel.blocker)) = 0 := by
  refine ⟨fun issues => ⟨calculate_score_eq_max issues, ?_, ?_⟩,
    by decide, by decide, by decide, by decide, by decide, by decide, by decide⟩
  · rw [calculate_score_eq_max]; exact le_max_left 0 _
  · rw [calculate_score_eq_max]
    have := penalty_nonneg issues
    omega

/-- Substring containment on lists (the Python `in` operator on strings,
used both by gate reasons inspection and the engine's rule filter). -/
def listContainsSub [DecidableEq α] : List α → List α → Bool
  | [], pat => pat.isEmpty
  | l@(_ :: t), pat => pat.isPrefixOf l || listContainsSub t pat

/-- Python `sub in s` for strings. -/
def substrContains (s sub : String) : Bool :=
  listContainsSub s.toList sub.toList

lemma check_gate_fst_iff (issues : List Issue) (fl : List IssueLevel)
    (st : Int) :
    (check_gate issues fl st).1 = true ↔ (check_gate issues fl st).2 = [] := by
  have hgen : ∀ l : List String, ((l.length == 0) = true ↔ l = []) := by
    intro l
    cases l <;> simp
  simp only [check_gate]
  exact hgen _

/-- C4 (amended): `check_gate` passes exactly when its reasons list is empty;
a single blocker-level finding fails with a reason mentioning "blocker"; and a
finding list containing only minor/info findings passes **provided** it has at
most 10 minor-level findings (so that the score stays at or above the default
threshold 70).  The unqualified claim is refuted by
`check_gate_minor_only_cex`. -/
theorem check_gate_spec :
    (∀ (issues : List Issue) (fl : List IssueLevel) (st : Int),
        (check_gate issues fl st).1 = true ↔ (check_gate issues fl st).2 = [])
    ∧ ((check_gate [mkIssue IssueLevel.blocker] DEFAULT_FAIL_LEVELS
          DEFAULT_SCORE_THRESHOLD).1 = false
       ∧ ∃ r ∈ (check_gate [mkIssue IssueLevel.blocker] DEFAULT_FAIL_LEVELS
            DEFAULT_SCORE_THRESHOLD).2, substrContains r "blocker" = true)
    ∧ (∀ issues : List Issue,
        (∀ i ∈ issues, i.level = IssueLevel.minor ∨ i.level = IssueLevel.info) →
        issues.countP (fun i => i.level = IssueLevel.minor) ≤ 10 →
        (check_gate issues DEFAULT_FAIL_LEVELS DEFAULT_SCORE_THRESHOLD).1
          = true) := by
  refine ⟨check_gate_fst_iff, ⟨by decide, by decide⟩, ?_⟩
  intro issues hlv hcnt
  have hb : issues.countP (fun i => i.level = IssueLevel.blocker) = 0 := by
    rw [List.countP_eq_zero]
    intro a ha
    rcases hlv a ha with h | h <;> simp [h]
  have hc : issues.countP (fun i => i.level = IssueLevel.critical) = 0 := by
    rw [List.countP_eq_zero]
    intro a ha
    rcases hlv a ha with h | h <;> simp [h]
  have hm : issues.countP (fun i => i.level = IssueLevel.major) = 0 := by
    rw [List.countP_eq_zero]
    intro a ha
    rcases hlv a ha with h | h <;> simp [h]
  have hscore : ¬ (calculate_score issues < DEFAULT_SCORE_THRESHOLD) := by
    rw [calculate_score_eq_max, penalty_minor_info issues hlv]
    have h30 : (3 * (issues.countP (fun i => i.level = IssueLevel.minor)) : Int)
        ≤ 30 := by
      have : ((issues.countP (fun i => i.level = IssueLevel.minor)) : Int)
          ≤ 10 := by exact_mod_cast hcnt
      omega
    simp only [DEFAULT_SCORE_THRESHOLD]
    omega
  simp only [check_gate, DEFAULT_FAIL_LEVELS, List.foldl_cons, List.foldl_nil,
    hb, hc, hm]
  simp [hscore]

/-- C4 counterexample: a list of 11 minor-level findings contains only
minor/info findings, yet the gate fails (score 67 is below the default
threshold 70), refuting "for any finding list containing only minor- and
info-level findings it passes". -/
theorem check_gate_minor_only_cex :
    (∀ i ∈ List.replicate 11 (mkIssue IssueLevel.minor),
        i.level = IssueLevel.minor ∨ i.level = IssueLevel.info)
    ∧ (check_gate (List.replicate 11 (mkIssue IssueLevel.minor))
        DEFAULT_FAIL_LEVELS DEFAULT_SCORE_THRESHOLD).1 = false := by
  constructor
  · decide
  · decide

/-- Witness for `check_gate_spec`: a single minor finding passes the gate. -/
theorem check_gate_spec_witness :
    (check_gate [mkIssue IssueLevel.minor] DEFAULT_FAIL_LEVELS
      DEFAULT_SCORE_THRESHOLD).1 = true :=
  check_gate_spec.2.2 [mkIssue IssueLevel.minor] (by decide) (by decide)

/- ===================== Migrations =====================
   From `src/dinocheck/core/migrations/`.  The SQLite connection is
   modelled as an explicit store value `DB`: the `PRAGMA user_version`
   stamp, the `llm_logs` table schema (column names) and its rows
   (column-name/value pairs).  Only the parts of the store migrations
   touch are carried. -/

structure DB where
  version : Nat
  llm_logs_cols : List String
  llm_logs : List (List (String × String))
deriving DecidableEq, Repr

/-- Model of `Migration` (migration.py): the version this step upgrades TO and
its `apply(connection)` operation. -/
structure Migration where
  version : Nat
  apply : DB → DB

def Migrator.get_version (db : DB) : Nat := db.version

def Migrator.set_version (db : DB) (v : Nat) : DB := { db with version := v }

/-- Model of `Migrator.apply_pending(conn, target)` from migrator.py.  The two
`raise ValueError` paths become `Except.error`; both checks precede the
loop, so in the error cases no transformation has been applied.  The
loop `for i in range(current, target)` applies the migrations with
indices `[current, target)` in ascending order, i.e. folds over the
slice `(drop current).take (target - current)`. -/
def Migrator.apply_pending (migrations : List Migration) (db : DB)
    (target : Nat) : Except String DB :=
  let current := Migrator.get_version db
  if target > migrations.length then
    .error ("Target version " ++ toString target ++
      " exceeds available migrations (" ++ toString migrations.length ++ ")")
  else if target < current then
    .error ("Downgrade from version " ++ toString current ++ " to " ++
      toString target ++ " is not supported")
  else
    .ok (Migrator.set_version
      (((migrations.drop current).take (target - current)).foldl
        (fun d m => m.apply d) db)
      target)

/-- Effect of `ALTER TABLE llm_logs DROP COLUMN col` guarded by the column-existence
check of m001_drop_prompt_response.py: removes the column from the schema
and its values from every row. -/
def dropColumn (db : DB) (col : String) : DB :=
  if col ∈ db.llm_logs_cols then
    { db with
        llm_logs_cols := db.llm_logs_cols.filter (fun c => decide (c ≠ col))
        llm_logs := db.llm_logs.map
          (fun row => row.filter (fun kv => decide (kv.1 ≠ col))) }
  else db

/-- Migration `M001DropPromptResponse` from m001_drop_prompt_response.py: drops
`prompt_text` then `response_text` if present. -/
def M001DropPromptResponse : Migration :=
  { version := 1
    apply := fun db => dropColumn (dropColumn db "prompt_text") "response_text" }

/-- Tuple `MIGRATIONS` from the migrations package init module. -/
def MIGRATIONS : List Migration := [M001DropPromptResponse]

/-- Modelled from the spec: `SQLiteCache.CURRENT_VERSION`
(dinocheck/core/cache.py is absent from the sources).  On open the
store runs `apply_pending` to the current known maximum version, i.e.
the number of known migrations. -/
def CURRENT_VERSION : Nat := MIGRATIONS.length

/-- The spec's reading of the migration loop, written independently of
the fold over a list slice: apply the transformations with indices in
`[c, t)` in ascending order. -/
def applyFrom (migs : List Migration) (db : DB) (c t : Nat) : DB :=
  if h : c < t then
    applyFrom migs ((migs.getD c ⟨0, fun d => d⟩).apply db) (c + 1) t
  else db
termination_by t - c
decreasing_by omega

lemma applyFrom_stop (migs : List Migration) (db : DB) (c t : Nat)
    (h : ¬ c < t) : applyFrom migs db c t = db := by
  rw [applyFrom]
  simp [h]

lemma foldl_slice_eq_applyFrom (migs : List Migration) :
    ∀ (n c : Nat) (db : DB), c + n ≤ migs.length →
      ((migs.drop c).take n).foldl (fun d m => m.apply d) db
        = applyFrom migs db c (c + n) := by
  intro n
  induction n with
  | zero =>
    intro c db h
    rw [applyFrom_stop migs db c (c + 0) (by omega)]
    simp
  | succ k ih =>
    intro c db h
    have hc : c < migs.length := by omega
    rw [List.drop_eq_getElem_cons hc]
    simp only [List.take_succ_cons, List.foldl_cons]
    have hlt : c < c + (k + 1) := by omega
    have hgetD : migs.getD c ⟨0, fun d => d⟩ = migs[c] := by
      rw [List.getD_eq_getElem?_getD, List.getElem?_eq_getElem hc]
      rfl
    rw [applyFrom, dif_pos hlt, hgetD,
      show c + (k + 1) = (c + 1) + k by omega]
    exact ih (c + 1) (migs[c].apply db) (by omega)

lemma apply_pending_ok (migs : List Migration) (db : DB) (target : Nat)
    (h1 : target ≤ migs.length) (h2 : db.version ≤ target) :
    Migrator.apply_pending migs db target
      = .ok (Migrator.set_version (applyFrom migs db db.version target)
          target) := by
  simp only [Migrator.apply_pending, Migrator.get_version]
  rw [if_neg (by omega), if_neg (by omega)]
  have := foldl_slice_eq_applyFrom migs (target - db.version) db.version db
    (by omega)
  rw [show db.version + (target - db.version) = target by omega] at this
  rw [this]

/-- C6: `apply_pending` errors when the target exceeds the number of known
transformations, errors on a downgrade (`target < current`), and otherwise
applies exactly the transformations with indices in `[current, target)` in
ascending order and stamps the version to `target`.  In both error cases the
checks precede the loop, so no transformation has been applied and the
returned value carries no modified store. -/
theorem apply_pending_spec :
    (∀ (migs : List Migration) (db : DB) (target : Nat),
        target > migs.length →
        ∃ msg, Migrator.apply_pending migs db target = .error msg)
    ∧ (∀ (migs : List Migration) (db : DB) (target : Nat),
        target ≤ migs.length → target < db.version →
        ∃ msg, Migrator.apply_pending migs db target = .error msg)
    ∧ (∀ (migs : List Migration) (db : DB) (target : Nat),
        target ≤ migs.length → db.version ≤ target →
        Migrator.apply_pending migs db target
          = .ok (Migrator.set_version (applyFrom migs db db.version target)
              target)) := by
  refine ⟨?_, ?_, fun migs db target h1 h2 => apply_pending_ok migs db target h1 h2⟩
  · intro migs db target h
    refine ⟨"Target version " ++ toString target ++
      " exceeds available migrations (" ++ toString migs.length ++ ")", ?_⟩
    simp only [Migrator.apply_pending]
    rw [if_pos h]
  · intro migs db target h1 h2
    refine ⟨"Downgrade from version " ++ toString db.version ++ " to " ++
      toString target ++ " is not supported", ?_⟩
    simp only [Migrator.apply_pending, Migrator.get_version]
    rw [if_neg (by omega), if_pos h2]

/-- A legacy store at schema version 0 with the since-removed columns. -/
def legacyDB : DB :=
  { version := 0
    llm_logs_cols := ["id", "model", "total_tokens", "prompt_text",
      "response_text"]
    llm_logs := [[("id", "log-1"), ("model", "gpt-4o-mini"),
      ("total_tokens", "150"), ("prompt_text", "prompt"),
      ("response_text", "response")]] }

/-- Witness for `apply_pending_spec`: evaluated on `MIGRATIONS` and
`legacyDB` — target 2 exceeds the single known migration, target 0 from
version 1 is a downgrade, and target 1 from version 0 applies M001. -/
theorem apply_pending_spec_witness :
    (∃ msg, Migrator.apply_pending MIGRATIONS legacyDB 2 = .error msg)
    ∧ (∃ msg, Migrator.apply_pending MIGRATIONS
        (Migrator.set_version legacyDB 1) 0 = .error msg)
    ∧ Migrator.apply_pending MIGRATIONS legacyDB 1
        = .ok (Migrator.set_version (applyFrom MIGRATIONS legacyDB 0 1) 1) :=
  ⟨apply_pending_spec.1 MIGRATIONS legacyDB 2 (by decide),
   apply_pending_spec.2.1 MIGRATIONS (Migrator.set_version legacyDB 1) 0
     (by decide) (by decide),
   apply_pending_spec.2.2 MIGRATIONS legacyDB 1 (by decide) (by decide)⟩

/-- C7: on a store whose version already equals the latest known version,
the full migration path (`apply_pending` to `CURRENT_VERSION`, as run on
every store open) is a no-op: it applies no transformation, changes no
table data, leaves the version unchanged and does not error. -/
theorem apply_pending_idempotent (db : DB)
    (h : db.version = CURRENT_VERSION) :
    Migrator.apply_pending MIGRATIONS db CURRENT_VERSION = .ok db := by
  rw [apply_pending_ok MIGRATIONS db CURRENT_VERSION (le_refl _) (by omega)]
  rw [h, applyFrom_stop MIGRATIONS db CURRENT_VERSION CURRENT_VERSION
    (by omega)]
  have : Migrator.set_version db CURRENT_VERSION = db := by
    cases db
    simp only [Migrator.set_version]
    simp_all
  rw [this]

/-- Witness for `apply_pending_idempotent`: a store already at the latest
version is returned unchanged. -/
theorem apply_pending_idempotent_witness :
    Migrator.apply_pending MIGRATIONS (Migrator.set_version legacyDB 1) 1
      = .ok (Migrator.set_version legacyDB 1) :=
  apply_pending_idempotent (Migrator.set_version legacyDB 1) (by decide)

/- ===================== Content hashing =====================
   `dinocheck/utils/hashing.py` is absent from the sources; the
   `ContentHasher` is modelled from the spec (§4.1).  A digest must be
   deterministic, normalize trailing whitespace on each line, and
   preserve every other whitespace difference; the rule-set digest must
   be order-independent (sort before hashing).  The underlying
   cryptographic hash is abstracted as an injective digest: the model
   returns the normalized text itself (resp. the sorted id list), which
   is collision-free by construction. -/

/-- Python `line.rstrip()`: drop trailing whitespace characters of one line. -/
def rstripLine (l : List Char) : List Char :=
  (l.reverse.dropWhile Char.isWhitespace).reverse

/-- Python `text.split` at newlines, over the character list. -/
def splitLinesChar : List Char → List (List Char)
  | [] => [[]]
  | c :: cs =>
    if c = '\n' then [] :: splitLinesChar cs
    else
      match splitLinesChar cs with
      | [] => [[c]]
      | l :: ls => (c :: l) :: ls

/-- Python newline `join` of lines. -/
def joinLines : List (List Char) → List Char
  | [] => []
  | [l] => l
  | l :: ls => l ++ '\n' :: joinLines ls

/-- The per-line normalized form of a content string. -/
def normalLines (s : String) : List (List Char) :=
  (splitLinesChar s.toList).map rstripLine

/-- Modelled from the spec: `ContentHasher.hash_content(text)` — join the
trailing-whitespace-stripped lines and digest them; the digest is
abstracted as the normalized text. -/
def ContentHasher.hash_content (s : String) : List Char :=
  joinLines (normalLines s)

/-- Lexicographic comparison of strings by character codepoint
(Python's default string ordering used by `sorted`). -/
def lexLe : List Char → List Char → Bool
  | [], _ => true
  | _ :: _, [] => false
  | a :: as, b :: bs => if a = b then lexLe as bs else decide (a.toNat < b.toNat)

def strLeb (a b : String) : Bool := lexLe a.toList b.toList

def insertSorted (x : String) : List String → List String
  | [] => [x]
  | y :: ys => if strLeb x y then x :: y :: ys else y :: insertSorted x ys

/-- Python `sorted(ids)`. -/
def sortStrings : List String → List String
  | [] => []
  | x :: xs => insertSorted x (sortStrings xs)

/-- Modelled from the spec: `ContentHasher.hash_rules(rule_ids)` — sort the
rule ids, then digest; the digest is abstracted as the sorted id list. -/
def ContentHasher.hash_rules (ruleIds : List String) : List String :=
  sortStrings ruleIds

/-- An edit that only adds or removes whitespace at the ends of lines:
same number of lines, and every line agrees once its trailing
whitespace is stripped. -/
def trailingWSOnlyEdit (s t : String) : Prop :=
  (splitLinesChar s.toList).length = (splitLinesChar t.toList).length ∧
  ∀ k, k < (splitLinesChar s.toList).length →
    rstripLine ((splitLinesChar s.toList).getD k [])
      = rstripLine ((splitLinesChar t.toList).getD k [])

instance (s t : String) : Decidable (trailingWSOnlyEdit s t) := by
  unfold trailingWSOnlyEdit
  exact instDecidableAnd

lemma splitLinesChar_ne_nil (cs : List Char) : splitLinesChar cs ≠ [] := by
  induction cs with
  | nil => simp [splitLinesChar]
  | cons c cs ih =>
    simp only [splitLinesChar]
    by_cases h : c = '\n'
    · simp [h]
    · rw [if_neg h]
      cases hsp : splitLinesChar cs <;> simp

lemma newline_not_mem_splitLinesChar (cs : List Char) :
    ∀ l ∈ splitLinesChar cs, '\n' ∉ l := by
  induction cs with
  | nil =>
    intro l hl
    simp [splitLinesChar] at hl
    simp [hl]
  | cons c cs ih =>
    intro l hl
    simp only [splitLinesChar] at hl
    by_cases h : c = '\n'
    · rw [if_pos h] at hl
      rcases List.mem_cons.mp hl with rfl | hmem
      · simp
      · exact ih l hmem
    · rw [if_neg h] at hl
      cases hsp : splitLinesChar cs with
      | nil => exact absurd hsp (splitLinesChar_ne_nil cs)
      | cons l0 ls =>
        rw [hsp] at hl
        rcases List.mem_cons.mp hl with rfl | hmem
        · intro hc
          rcases List.mem_cons.mp hc with rfl | hc0
          · exact h rfl
          · exact ih l0 (hsp ▸ List.mem_cons_self l0 ls) hc0
        · exact ih l (hsp ▸ List.mem_cons_of_mem l0 hmem)

lemma splitLinesChar_no_newline (l : List Char) (h : '\n' ∉ l) :
    splitLinesChar l = [l] := by
  induction l with
  | nil => simp [splitLinesChar]
  | cons c cs ih =>
    have hc : c ≠ '\n' := fun hceq => h (hceq ▸ List.mem_cons_self c cs)
    have hcs : '\n' ∉ cs := fun hmem => h (List.mem_cons_of_mem c hmem)
    simp only [splitLinesChar]
    rw [if_neg hc, ih hcs]

lemma splitLinesChar_append_newline (l cs : List Char) (h : '\n' ∉ l) :
    splitLinesChar (l ++ '\n' :: cs) = l :: splitLinesChar cs := by
  induction l with
  | nil =>
    simp [splitLinesChar]
  | cons c l ih =>
    have hc : c ≠ '\n' := fun hceq => h (hceq ▸ List.mem_cons_self c l)
    have hl : '\n' ∉ l := fun hmem => h (List.mem_cons_of_mem c hmem)
    simp only [List.cons_append, splitLinesChar]
    rw [if_neg hc]
    have ih2 := ih hl
    simp only [List.append_eq] at ih2 ⊢
    rw [ih2]

lemma splitLinesChar_joinLines (ls : List (List Char)) (h1 : ls ≠ [])
    (h2 : ∀ l ∈ ls, '\n' ∉ l) : splitLinesChar (joinLines ls) = ls := by
  induction ls with
  | nil => exact absurd rfl h1
  | cons l ls ih =>
    cases ls with
    | nil =>
      simp only [joinLines]
      exact splitLinesChar_no_newline l (h2 l (List.mem_cons_self l []))
    | cons l2 ls2 =>
      show splitLinesChar (l ++ '\n' :: joinLines (l2 :: ls2)) = _
      rw [splitLinesChar_append_newline l _ (h2 l (List.mem_cons_self l _))]
      rw [ih (by simp) (fun x hx => h2 x (List.mem_cons_of_mem l hx))]

lemma mem_of_mem_rstripLine {a : Char} {l : List Char}
    (h : a ∈ rstripLine l) : a ∈ l := by
  simp only [rstripLine, List.mem_reverse] at h
  exact List.mem_reverse.mp ((List.dropWhile_sublist _).mem h)

lemma normalLines_recover (s : String) :
    splitLinesChar (joinLines (normalLines s)) = normalLines s := by
  apply splitLinesChar_joinLines
  · simp only [normalLines]
    intro hmapnil
    exact splitLinesChar_ne_nil s.toList (List.map_eq_nil.mp hmapnil)
  · intro l hl
    simp only [normalLines, List.mem_map] at hl
    obtain ⟨l0, hl0, rfl⟩ := hl
    intro hmem
    exact newline_not_mem_splitLinesChar s.toList l0 hl0
      (mem_of_mem_rstripLine hmem)

lemma rstripLine_append_fixed (ind body : List Char) (hne : body ≠ [])
    (hfix : rstripLine body = body) :
    rstripLine (ind ++ body) = ind ++ body := by
  have hrev : body.reverse.dropWhile Char.isWhitespace = body.reverse := by
    have := congrArg List.reverse hfix
    simpa [rstripLine] using this
  cases hb : body.reverse with
  | nil =>
    exact absurd (by simpa using congrArg List.reverse hb) hne
  | cons c rest =>
    have hcws : Char.isWhitespace c = false := by
      by_contra hcw
      have hcw' : Char.isWhitespace c = true := by
        cases hx : Char.isWhitespace c
        · exact absurd hx hcw
        · rfl
      rw [hb, List.dropWhile_cons, if_pos hcw'] at hrev
      have := congrArg List.length hrev
      have hle := List.length_le_of_sublist (List.dropWhile_sublist
        (l := rest) Char.isWhitespace)
      simp at this
      omega
    simp only [rstripLine, List.reverse_append, hb, List.cons_append,
      List.dropWhile_cons, hcws]
    have h3 := congrArg List.reverse hb
    simp only [List.reverse_reverse] at h3
    simp [h3]

/-- C8: `hash_content` is deterministic; a trailing-whitespace-only edit
leaves the digest unchanged; the (injective) digest determines the
normalized line list, and a change of leading indentation on a line with
non-whitespace content changes the line's normalized form — hence the
digest; the two concrete pairs are the hasher tests' inputs. -/
theorem hash_content_spec :
    (∀ s : String, ContentHasher.hash_content s = ContentHasher.hash_content s)
    ∧ (∀ s t : String, trailingWSOnlyEdit s t →
        ContentHasher.hash_content s = ContentHasher.hash_content t)
    ∧ (∀ s t : String,
        ContentHasher.hash_content s = ContentHasher.hash_content t →
        normalLines s = normalLines t)
    ∧ (∀ ind ind2 body : List Char,
        (∀ c ∈ ind, c.isWhitespace) → (∀ c ∈ ind2, c.isWhitespace) →
        ind ≠ ind2 → body ≠ [] → rstripLine body = body →
        rstripLine (ind ++ body) ≠ rstripLine (ind2 ++ body))
    ∧ ContentHasher.hash_content "def foo():    \n    pass"
        = ContentHasher.hash_content "def foo():\n    pass"
    ∧ ContentHasher.hash_content "def foo():\n    pass"
        ≠ ContentHasher.hash_content "def foo():\n        pass" := by
  refine ⟨fun s => rfl, ?_, ?_, ?_, by decide, by decide⟩
  · intro s t ⟨hlen, hk⟩
    have : normalLines s = normalLines t := by
      apply List.ext_getElem
      · simp only [normalLines, List.length_map]
        exact hlen
      · intro n h1 h2
        simp only [normalLines, List.length_map] at h1 h2
        simp only [normalLines, List.getElem_map]
        rw [← List.getD_eq_getElem (splitLinesChar s.toList) [] h1,
          ← List.getD_eq_getElem (splitLinesChar t.toList) [] h2]
        exact hk n h1
    simp [ContentHasher.hash_content, this]
  · intro s t h
    have hs := normalLines_recover s
    have ht := normalLines_recover t
    rw [← hs, ← ht]
    simp only [ContentHasher.hash_content] at h
    rw [h]
  · intro ind ind2 body _ _ hne hbody hfix heq
    rw [rstripLine_append_fixed ind body hbody hfix,
      rstripLine_append_fixed ind2 body hbody hfix] at heq
    exact hne (List.append_cancel_right heq)

/-- Witness for `hash_content_spec`: the two test inputs of
`TestContentHasher` (trailing-whitespace edit keeps the digest; an
indentation change of a non-blank line changes the stripped line). -/
theorem hash_content_spec_witness :
    (trailingWSOnlyEdit "def foo():    \n    pass" "def foo():\n    pass"
     ∧ ContentHasher.hash_content "def foo():    \n    pass"
         = ContentHasher.hash_content "def foo():\n    pass")
    ∧ rstripLine ([' ', ' '] ++ ['p', 'a']) ≠ rstripLine ([' '] ++ ['p', 'a']) :=
  ⟨⟨by decide, hash_content_spec.2.1 _ _ (by decide)⟩,
   hash_content_spec.2.2.2.1 [' ', ' '] [' '] ['p', 'a']
     (by decide) (by decide) (by decide) (by decide) (by decide)⟩

/- ===================== Result store (cache) =====================
   `dinocheck/core/cache.py` is absent from the sources; the cache is
   modelled from the spec (§3, §4.3): a composite key triple
   (content-hash, rule-set-version, rules-hash) mapping to a serialized
   finding list with a creation timestamp; `put` upserts (last-write-wins,
   fresh TTL window), `get` returns the list only for a live, non-expired
   exact match of all three components, absence otherwise.  Time is an
   explicit `Nat` parameter (seconds); an entry is expired once
   `now - created_at > ttl`. -/

structure CacheKey where
  file_hash : List Char
  ruleset_version : String
  rules_hash : List String
deriving DecidableEq, Repr

structure CacheEntry where
  key : CacheKey
  issues : List Issue
  created_at : Nat
deriving DecidableEq, Repr

/-- Modelled from the spec: `SQLiteCache.put(file_hash, ruleset_version,
rules_hash, findings)` — replaces any existing entry with the same key
triple and stamps a fresh creation time. -/
def SQLiteCache.put (store : List CacheEntry) (k : CacheKey)
    (issues : List Issue) (now : Nat) : List CacheEntry :=
  { key := k, issues := issues, created_at := now } ::
    store.filter (fun e => decide (e.key ≠ k))

/-- Modelled from the spec: `SQLiteCache.get(file_hash, ruleset_version,
rules_hash)` — the stored finding list if a live, non-expired entry
matches all three key components exactly, absence otherwise. -/
def SQLiteCache.get (store : List CacheEntry) (k : CacheKey)
    (now ttl : Nat) : Option (List Issue) :=
  match store.find? (fun e => decide (e.key = k)) with
  | some e => if now - e.created_at > ttl then none else some e.issues
  | none => none

lemma SQLiteCache.get_put_same (store : List CacheEntry) (k : CacheKey)
    (issues : List Issue) (now now2 ttl : Nat) (h : now2 - now ≤ ttl) :
    SQLiteCache.get (SQLiteCache.put store k issues now) k now2 ttl
      = some issues := by
  have hstep : SQLiteCache.get (SQLiteCache.put store k issues now) k now2 ttl
      = if now2 - now > ttl then none else some issues := by
    simp [SQLiteCache.get, SQLiteCache.put]
  rw [hstep, if_neg (by omega)]

/-- C2: a `put` followed by a `get` with the same key triple returns exactly
the finding list written (before TTL expiry); a `get` where any one of the
three key components differs returns absence; and a second `put` with an
already-used triple replaces the prior entry, so the store never holds two
live entries for the same triple. -/
theorem cache_put_get_spec :
    (∀ (store : List CacheEntry) (k : CacheKey) (issues : List Issue)
        (now now2 ttl : Nat), now2 - now ≤ ttl →
        SQLiteCache.get (SQLiteCache.put store k issues now) k now2 ttl
          = some issues)
    ∧ (∀ (k k2 : CacheKey) (issues : List Issue) (now now2 ttl : Nat),
        (k.file_hash ≠ k2.file_hash ∨ k.ruleset_version ≠ k2.ruleset_version
          ∨ k.rules_hash ≠ k2.rules_hash) →
        SQLiteCache.get (SQLiteCache.put [] k issues now) k2 now2 ttl = none)
    ∧ (∀ (store : List CacheEntry) (k : CacheKey) (i1 i2 : List Issue)
        (t1 t2 : Nat),
        ((SQLiteCache.put (SQLiteCache.put store k i1 t1) k i2 t2).filter
          (fun e => decide (e.key = k))).length = 1
        ∧ ∀ (now2 ttl : Nat), now2 - t2 ≤ ttl →
            SQLiteCache.get (SQLiteCache.put (SQLiteCache.put store k i1 t1)
              k i2 t2) k now2 ttl = some i2) := by
  have hfilter_nil : ∀ (store : List CacheEntry) (k : CacheKey),
      (store.filter (fun e => decide (e.key ≠ k))).filter
        (fun e => decide (e.key = k)) = [] := by
    intro store k
    rw [List.filter_eq_nil]
    intro e he
    have := (List.mem_filter.mp he).2
    simpa using this
  have hget_put := fun store k issues now now2 ttl h =>
    SQLiteCache.get_put_same store k issues now now2 ttl h
  have hput_put : ∀ (store : List CacheEntry) (k : CacheKey)
      (i1 i2 : List Issue) (t1 t2 : Nat),
      SQLiteCache.put (SQLiteCache.put store k i1 t1) k i2 t2
        = { key := k, issues := i2, created_at := t2 } ::
            store.filter (fun e => decide (e.key ≠ k)) := by
    intro store k i1 i2 t1 t2
    simp only [SQLiteCache.put, List.filter_cons]
    rw [if_neg (by simp)]
    congr 1
    rw [List.filter_filter]
    apply List.filter_congr
    intro e he
    simp
  refine ⟨hget_put, ?_, ?_⟩
  · intro k k2 issues now now2 ttl hdiff
    have hne : k ≠ k2 := by
      intro heq
      subst heq
      rcases hdiff with h | h | h <;> exact h rfl
    simp [SQLiteCache.get, SQLiteCache.put, hne]
  · intro store k i1 i2 t1 t2
    refine ⟨?_, fun now2 ttl h => by rw [hput_put]; exact hget_put _ k i2 t2 now2 ttl h⟩
    rw [hput_put, List.filter_cons, if_pos (by simp), hfilter_nil]
    rfl

/-- Witness for `cache_put_get_spec`: one concrete key triple, a
differing triple, and a double `put`. -/
theorem cache_put_get_spec_witness :
    SQLiteCache.get (SQLiteCache.put []
      ⟨['a'], "composed", ["r1"]⟩ [mkIssue IssueLevel.major] 5)
      ⟨['a'], "composed", ["r1"]⟩ 6 10 = some [mkIssue IssueLevel.major]
    ∧ SQLiteCache.get (SQLiteCache.put []
        ⟨['a'], "composed", ["r1"]⟩ [mkIssue IssueLevel.major] 5)
        ⟨['b'], "composed", ["r1"]⟩ 6 10 = none
    ∧ SQLiteCache.get (SQLiteCache.put (SQLiteCache.put []
        ⟨['a'], "composed", ["r1"]⟩ [mkIssue IssueLevel.major] 5)
        ⟨['a'], "composed", ["r1"]⟩ [mkIssue IssueLevel.minor] 7)
        ⟨['a'], "composed", ["r1"]⟩ 8 10 = some [mkIssue IssueLevel.minor] :=
  ⟨cache_put_get_spec.1 [] ⟨['a'], "composed", ["r1"]⟩
      [mkIssue IssueLevel.major] 5 6 10 (by decide),
   cache_put_get_spec.2.1 ⟨['a'], "composed", ["r1"]⟩
      ⟨['b'], "composed", ["r1"]⟩ [mkIssue IssueLevel.major] 5 6 10
      (Or.inl (by decide)),
   (cache_put_get_spec.2.2 (SQLiteCache.put []
      ⟨['a'], "composed", ["r1"]⟩ [mkIssue IssueLevel.major] 5)
      ⟨['a'], "composed", ["r1"]⟩ [mkIssue IssueLevel.major]
      [mkIssue IssueLevel.minor] 5 7).2 8 10 (by decide)⟩

/- ===================== Per-file cap =====================
   `Engine._limit_per_file` from engine.py: group by `str(location.path)`
   in a dict (insertion-ordered, appending to the existing group), sort
   each group by severity rank (Python's stable `list.sort`, modelled by
   the stable insertion sort) and keep the first
   `MAX_ISSUES_PER_FILE` issues of each group. -/

def MAX_ISSUES_PER_FILE : Nat := 10

def severity_order : List String :=
  ["blocker", "critical", "major", "minor", "info"]

/-- The sort key `severity_order.index(i.level.value)`. -/
def severityIndex (i : Issue) : Nat :=
  severity_order.indexOf i.level.value

def sevLE (a b : Issue) : Prop := severityIndex a ≤ severityIndex b

instance : DecidableRel sevLE := fun a b => Nat.decLe _ _

instance : IsTotal Issue sevLE := ⟨fun a b => Nat.le_total _ _⟩

instance : IsTrans Issue sevLE := ⟨fun _ _ _ => Nat.le_trans⟩

/-- Model of `file_issues.sort` keyed by the severity rank:
Python's sort is stable; insertion sort is the stable sort. -/
def sortBySeverity (l : List Issue) : List Issue :=
  List.insertionSort sevLE l

def pathOf (i : Issue) : String := i.location.path

/-- One step of `by_file[path].append(issue)` on the insertion-ordered
dict modelled as an association list. -/
def addToGroup : List (String × List Issue) → String → Issue →
    List (String × List Issue)
  | [], p, i => [(p, [i])]
  | (q, g) :: rest, p, i =>
    if q = p then (q, g ++ [i]) :: rest else (q, g) :: addToGroup rest p i

/-- The grouping loop of `_limit_per_file`. -/
def by_file (issues : List Issue) : List (String × List Issue) :=
  issues.foldl (fun acc i => addToGroup acc (pathOf i) i) []

/-- Model of `Engine._limit_per_file(issues)`. -/
def Engine.limit_per_file (issues : List Issue) : List Issue :=
  (by_file issues).foldl
    (fun limited g => limited ++ (sortBySeverity g.2).take MAX_ISSUES_PER_FILE)
    []

/-- The distinct file paths in order of first occurrence. -/
def firstOccurrences : List String → List String
  | [] => []
  | p :: ps => p :: firstOccurrences (ps.filter (fun q => decide (q ≠ p)))
termination_by l => l.length
decreasing_by
  simp only [List.length_cons]
  exact Nat.lt_succ_of_le (List.length_filter_le _ _)

lemma mem_firstOccurrences (L : List String) (q : String) :
    q ∈ firstOccurrences L ↔ q ∈ L := by
  induction L using firstOccurrences.induct with
  | case1 => simp [firstOccurrences]
  | case2 p ps ih =>
    rw [firstOccurrences]
    simp only [List.mem_cons, ih, List.mem_filter]
    by_cases hq : q = p
    · simp [hq]
    · simp [hq]

lemma nodup_firstOccurrences (L : List String) :
    (firstOccurrences L).Nodup := by
  induction L using firstOccurrences.induct with
  | case1 => simp [firstOccurrences]
  | case2 p ps ih =>
    rw [firstOccurrences]
    rw [List.nodup_cons]
    refine ⟨?_, ih⟩
    intro hmem
    have := (mem_firstOccurrences _ p).mp hmem
    simp [List.mem_filter] at this

lemma firstOccurrences_snoc (L : List String) (p : String) :
    firstOccurrences (L ++ [p])
      = if p ∈ L then firstOccurrences L else firstOccurrences L ++ [p] := by
  induction L using firstOccurrences.induct with
  | case1 => simp [firstOccurrences]
  | case2 x xs ih =>
    rw [List.cons_append, firstOccurrences]
    by_cases hpx : p = x
    · subst hpx
      have hfl : (xs ++ [p]).filter (fun q => decide (q ≠ p))
          = xs.filter (fun q => decide (q ≠ p)) := by
        rw [List.filter_append]
        simp
      rw [hfl]
      simp [firstOccurrences]
    · have hfl : (xs ++ [p]).filter (fun q => decide (q ≠ x))
          = xs.filter (fun q => decide (q ≠ x)) ++ [p] := by
        rw [List.filter_append]
        simp [hpx]
      rw [hfl, ih]
      have hmem : p ∈ xs.filter (fun q => decide (q ≠ x)) ↔ p ∈ xs := by
        simp [List.mem_filter, hpx]
      by_cases hp : p ∈ xs
      · rw [if_pos (hmem.mpr hp), if_pos (by simp [hp]), firstOccurrences]
      · rw [if_neg (fun hc => hp (hmem.mp hc)),
          if_neg (by simp [hp, hpx]), firstOccurrences]
        simp

lemma addToGroup_not_mem (l : List (String × List Issue)) (p : String)
    (i : Issue) (h : ∀ qg ∈ l, qg.1 ≠ p) :
    addToGroup l p i = l ++ [(p, [i])] := by
  induction l with
  | nil => rfl
  | cons qg rest ih =>
    obtain ⟨q, g⟩ := qg
    have hq : q ≠ p := h (q, g) (List.mem_cons_self _ _)
    simp only [addToGroup, if_neg hq, List.cons_append]
    rw [ih (fun x hx => h x (List.mem_cons_of_mem _ hx))]

lemma addToGroup_mapped (l : List String) (f : String → List Issue)
    (p : String) (i : Issue) (hnd : l.Nodup) (hp : p ∈ l) :
    addToGroup (l.map (fun q => (q, f q))) p i
      = l.map (fun q => (q, if q = p then f q ++ [i] else f q)) := by
  induction l with
  | nil => simp at hp
  | cons x xs ih =>
    rw [List.nodup_cons] at hnd
    simp only [List.map_cons, addToGroup]
    by_cases hx : x = p
    · rw [if_pos hx, hx, if_pos rfl]
      congr 1
      apply List.map_congr_left
      intro q hq
      have : q ≠ p := fun hqp => hnd.1 (hx ▸ hqp ▸ hq)
      rw [if_neg this]
    · rw [if_neg hx, if_neg hx]
      have hpxs : p ∈ xs := by
        rcases List.mem_cons.mp hp with h | h
        · exact absurd h.symm hx
        · exact h
      rw [ih hnd.2 hpxs]

lemma by_file_snoc (issues : List Issue) (i : Issue) :
    by_file (issues ++ [i])
      = addToGroup (by_file issues) (pathOf i) i := by
  simp only [by_file, List.foldl_append, List.foldl_cons, List.foldl_nil]

lemma filter_path_eq_nil (issues : List Issue) (p : String)
    (hp : p ∉ issues.map pathOf) :
    issues.filter (fun i => decide (pathOf i = p)) = [] := by
  rw [List.filter_eq_nil]
  intro a ha
  simp only [decide_eq_true_eq]
  intro hpa
  exact hp (hpa ▸ List.mem_map_of_mem pathOf ha)

lemma by_file_eq (issues : List Issue) :
    by_file issues = (firstOccurrences (issues.map pathOf)).map
      (fun p => (p, issues.filter (fun i => decide (pathOf i = p)))) := by
  induction issues using List.reverseRecOn with
  | nil => simp [by_file, firstOccurrences]
  | append_singleton is i ih =>
    rw [by_file_snoc, ih, List.map_append, List.map_cons, List.map_nil]
    by_cases hp : pathOf i ∈ is.map pathOf
    · rw [addToGroup_mapped _ _ _ _ (nodup_firstOccurrences _)
        ((mem_firstOccurrences _ _).mpr hp)]
      rw [firstOccurrences_snoc, if_pos hp]
      apply List.map_congr_left
      intro q hq
      rw [List.filter_append, List.filter_cons, List.filter_nil]
      by_cases hqp : q = pathOf i
      · rw [if_pos hqp, if_pos (by simp [hqp])]
      · rw [if_neg hqp, if_neg (by simp; exact fun hc => hqp hc.symm)]
        simp
    · rw [addToGroup_not_mem]
      · rw [firstOccurrences_snoc, if_neg hp, List.map_append, List.map_cons,
          List.map_nil]
        congr 1
        · apply List.map_congr_left
          intro q hq
          have hq2 : q ∈ is.map pathOf := (mem_firstOccurrences _ _).mp hq
          have hqp : q ≠ pathOf i := fun hc => hp (hc ▸ hq2)
          rw [List.filter_append, List.filter_cons, List.filter_nil,
            if_neg (by simp; exact fun hc => hqp hc.symm)]
          simp
        · rw [List.filter_append, List.filter_cons, List.filter_nil,
            if_pos (by simp), filter_path_eq_nil is _ hp]
          simp
      · intro qg hqg
        simp only [List.mem_map] at hqg
        obtain ⟨q, hq, rfl⟩ := hqg
        exact fun hc => hp (hc ▸ (mem_firstOccurrences _ _).mp hq)

lemma foldl_append_eq_flatMap (h : (String × List Issue) → List Issue) :
    ∀ (gs : List (String × List Issue)) (init : List Issue),
      gs.foldl (fun acc g => acc ++ h g) init = init ++ gs.flatMap h := by
  intro gs
  induction gs with
  | nil => intro init; simp
  | cons g rest ih =>
    intro init
    simp only [List.foldl_cons, List.flatMap_cons, ih, List.append_assoc]

lemma limit_per_file_eq (issues : List Issue) :
    Engine.limit_per_file issues
      = (firstOccurrences (issues.map pathOf)).flatMap
          (fun p => (sortBySeverity (issues.filter
            (fun i => decide (pathOf i = p)))).take MAX_ISSUES_PER_FILE) := by
  rw [Engine.limit_per_file, foldl_append_eq_flatMap, List.nil_append,
    by_file_eq]
  induction firstOccurrences (issues.map pathOf) with
  | nil => simp
  | cons q qs ih =>
    simp only [List.map_cons, List.flatMap_cons, ih]

lemma chunk_path (issues : List Issue) (p : String) (x : Issue)
    (hx : x ∈ (sortBySeverity (issues.filter
      (fun i => decide (pathOf i = p)))).take MAX_ISSUES_PER_FILE) :
    pathOf x = p := by
  have h1 := List.mem_of_mem_take hx
  simp only [sortBySeverity] at h1
  have h2 := ((List.perm_insertionSort sevLE _).mem_iff).mp h1
  have h3 := (List.mem_filter.mp h2).2
  simpa using h3

lemma flatMap_filter_path_length (N : Nat) (p : String)
    (chunk : String → List Issue) :
    ∀ qs : List String, qs.Nodup →
      (∀ q, ∀ x ∈ chunk q, pathOf x = q) →
      (∀ q, (chunk q).length ≤ N) →
      ((qs.flatMap chunk).filter (fun i => decide (pathOf i = p))).length
        ≤ N := by
  intro qs
  induction qs with
  | nil => intro _ _ _; simp
  | cons q rest ih =>
    intro hnd hpath hlen
    rw [List.nodup_cons] at hnd
    rw [List.flatMap_cons, List.filter_append, List.length_append]
    by_cases hqp : q = p
    · subst hqp
      have hrest : (rest.flatMap chunk).filter
          (fun i => decide (pathOf i = q)) = [] := by
        rw [List.filter_eq_nil]
        intro a ha
        simp only [List.mem_flatMap] at ha
        obtain ⟨q2, hq2, ha2⟩ := ha
        have hpq2 := hpath q2 a ha2
        simp only [hpq2, decide_eq_true_eq]
        exact fun hc => hnd.1 (hc ▸ hq2)
      rw [hrest]
      simp only [List.length_nil, Nat.add_zero]
      exact le_trans (List.length_filter_le _ _) (hlen q)
    · have hq : (chunk q).filter (fun i => decide (pathOf i = p)) = [] := by
        rw [List.filter_eq_nil]
        intro a ha
        have hpq := hpath q a ha
        simp [hpq, hqp]
      rw [hq]
      simpa using ih hnd.2 hpath hlen

lemma take_drop_sevLE (l : List Issue) (n : Nat) (x y : Issue)
    (hx : x ∈ (sortBySeverity l).take n)
    (hy : y ∈ (sortBySeverity l).drop n) :
    severityIndex x ≤ severityIndex y := by
  have hs : List.Pairwise sevLE (sortBySeverity l) :=
    List.sorted_insertionSort sevLE l
  rw [← List.take_append_drop n (sortBySeverity l)] at hs
  exact (List.pairwise_append.mp hs).2.2 x hx y hy

/-- C3: `_limit_per_file` equals the flat map, over the distinct file paths
in order of first occurrence, of the severity-sorted per-path group cut to
the first `MAX_ISSUES_PER_FILE` issues.  Hence it groups by file path, orders
each group by severity (blocker first, info last), keeps at most 10 findings
per file with the more severe retained before any less severe is dropped,
and confines sorting and truncation to each file's group — group blocks keep
the first-occurrence order of their paths and no finding crosses groups. -/
theorem limit_per_file_spec (issues : List Issue) :
    (Engine.limit_per_file issues
      = (firstOccurrences (issues.map pathOf)).flatMap
          (fun p => (sortBySeverity (issues.filter
            (fun i => decide (pathOf i = p)))).take MAX_ISSUES_PER_FILE))
    ∧ (∀ p : String,
        ((Engine.limit_per_file issues).filter
          (fun i => decide (pathOf i = p))).length ≤ MAX_ISSUES_PER_FILE)
    ∧ (∀ (p : String) (x y : Issue),
        x ∈ (sortBySeverity (issues.filter
          (fun i => decide (pathOf i = p)))).take MAX_ISSUES_PER_FILE →
        y ∈ (sortBySeverity (issues.filter
          (fun i => decide (pathOf i = p)))).drop MAX_ISSUES_PER_FILE →
        severityIndex x ≤ severityIndex y) := by
  refine ⟨limit_per_file_eq issues, ?_, ?_⟩
  · intro p
    rw [limit_per_file_eq]
    apply flatMap_filter_path_length
    · exact nodup_firstOccurrences _
    · intro q x hx
      exact chunk_path issues q x hx
    · intro q
      rw [List.length_take]
      exact min_le_left _ _
  · intro p x y hx hy
    exact take_drop_sevLE _ _ x y hx hy

/-- Fifteen findings for one file spanning three severities. -/
def capIssues : List Issue :=
  List.replicate 5 (mkIssue IssueLevel.minor)
    ++ List.replicate 5 (mkIssue IssueLevel.blocker)
    ++ List.replicate 5 (mkIssue IssueLevel.major)

/-- Witness for `limit_per_file_spec`: on 15 findings for one file the cap
retains exactly 10, and a retained finding is at least as severe as any
dropped one. -/
theorem limit_per_file_spec_witness :
    ((Engine.limit_per_file capIssues).filter
      (fun i => decide (pathOf i = "test.py"))).length ≤ MAX_ISSUES_PER_FILE
    ∧ (Engine.limit_per_file capIssues).length = 10
    ∧ severityIndex (mkIssue IssueLevel.blocker)
        ≤ severityIndex (mkIssue IssueLevel.minor) :=
  ⟨(limit_per_file_spec capIssues).2.1 "test.py",
   by decide,
   (limit_per_file_spec capIssues).2.2 "test.py"
     (mkIssue IssueLevel.blocker) (mkIssue IssueLevel.minor)
     (by decide) (by decide)⟩

/- ===================== Pack composition =====================
   From `src/dinocheck/packs/loader.py`.  The global pack registry is
   modelled as an explicit association list (its population by
   `_ensure_builtin_packs` is environment-dependent and outside the
   claims); `get_pack` raises `ValueError` for an unknown name, modelled
   as `Except.error`. -/

structure Rule where
  id : String
  level : IssueLevel
  name : String
deriving DecidableEq, Repr

structure Pack where
  name : String
  version : String
  rules : List Rule
deriving DecidableEq, Repr

def get_pack (registry : List (String × Pack)) (name : String) :
    Except String Pack :=
  match registry.find? (fun e => decide (e.1 = name)) with
  | some e => .ok e.2
  | none => .error ("Pack not found: " ++ name)

def get_packs (registry : List (String × Pack)) (names : List String) :
    Except String (List Pack) :=
  names.mapM (get_pack registry)

/-- Dict assignment `all_rules[rule.id] = rule` on the insertion-ordered dict: an existing
id keeps its position and gets the new rule (later source wins); a new id
is appended. -/
def upsertRule : List (String × Rule) → Rule → List (String × Rule)
  | [], r => [(r.id, r)]
  | (k, v) :: rest, r =>
    if k = r.id then (k, r) :: rest else (k, v) :: upsertRule rest r

structure ComposedPack where
  name : String
  version : String
  rules : List Rule
deriving DecidableEq, Repr

/-- Model of `PackCompositor.compose(pack_names, overlays)` from loader.py: resolve
the packs, overlay their rules by id (later wins), and return a
`ComposedPack` named by joining the pack names with `+` and carrying the
constant version string `"composed"`. -/
def PackCompositor.compose (registry : List (String × Pack))
    (pack_names : List String) (overlays : List Pack) :
    Except String ComposedPack :=
  match get_packs registry pack_names with
  | .error e => .error e
  | .ok packs =>
    let all_rules := (packs ++ overlays).foldl
      (fun d p => p.rules.foldl (fun d r => upsertRule d r) d) []
    .ok { name := String.intercalate "+" pack_names
          version := "composed"
          rules := all_rules.map (fun kv => kv.2) }

/- ===================== Orchestration engine =====================
   From `src/dinocheck/core/engine.py`.  Modelling notes:
   - `composed_pack.get_rules_for_file` is declared in
     `dinocheck/core/interfaces.py` (absent from the sources); it is kept
     abstract as a function parameter `getRules`.
   - The provider call, response validation/translation and the
     `log_llm_call` append of the `try` block of `_analyze_file_sync` are
     abstracted into one fallible call `provider : FileContext → List Rule →
     Except String (List Issue)`; `.ok issues` is a successful call with its
     translated issues, `.error` any exception raised inside the block, which
     the source catches and turns into an empty issue list.
   - `_analyze_file_sync` therefore never raises on the modelled paths, so
     the `except` branch of the `as_completed` loop is not taken; the
     thread-pool fan-in is modelled as a sequential fold over the dispatched
     units (completion order only permutes the aggregation, which no claim
     depends on).
   - Wall-clock time is an explicit `now`; logging and progress callbacks
     are side channels and are omitted.
   - The second component returned by `analyze_file_sync` instruments the
     number of provider invocations made for the unit (0 or 1); it is not
     part of the source's return value. -/

structure FileContext where
  path : String
  content : String
deriving DecidableEq, Repr

/-- The cache key triple the engine computes for a file
(engine.py lines 136-140 and 180-182). -/
def Engine.cacheKeyFor (pack : ComposedPack) (f : FileContext) : CacheKey :=
  { file_hash := ContentHasher.hash_content f.content
    ruleset_version := pack.version
    rules_hash := ContentHasher.hash_rules (pack.rules.map (fun r => r.id)) }

/-- Model of `Engine._analyze_file_sync`: no applicable rules short-circuits to an
empty list before any provider interaction; otherwise the provider is
invoked and any exception degrades to an empty list. -/
def Engine.analyze_file_sync (getRules : String → String → List Rule)
    (provider : FileContext → List Rule → Except String (List Issue))
    (f : FileContext) : List Issue × Nat :=
  let rules := getRules f.path f.content
  if rules.isEmpty then ([], 0)
  else
    match provider f rules with
    | .ok issues => (issues, 1)
    | .error _ => ([], 1)

structure DispatchState where
  cache : List CacheEntry
  all_issues : List Issue
  llm_calls : Nat
  provider_calls : Nat
deriving DecidableEq, Repr

/-- The body of the `as_completed` loop in `Engine.analyze` for one unit:
collect the unit's issues, count the unit in `llm_calls`, and write the
issue list (even an empty one) to the cache under the unit's key. -/
def Engine.processUncached (pack : ComposedPack)
    (getRules : String → String → List Rule)
    (provider : FileContext → List Rule → Except String (List Issue))
    (now : Nat) (st : DispatchState) (f : FileContext) : DispatchState :=
  let r := Engine.analyze_file_sync getRules provider f
  { cache := SQLiteCache.put st.cache (Engine.cacheKeyFor pack f) r.1 now
    all_issues := st.all_issues ++ r.1
    llm_calls := st.llm_calls + 1
    provider_calls := st.provider_calls + r.2 }

structure PartitionResult where
  hit_issues : List Issue
  uncached : List FileContext
  cache_hits : Nat
deriving DecidableEq, Repr

/-- The cache-partition loop of `Engine.analyze` (step 3): hits extend the
final issue list, misses form the uncached set. -/
def Engine.partitionCache (pack : ComposedPack) (cache : List CacheEntry)
    (now ttl : Nat) (files : List FileContext) : PartitionResult :=
  files.foldl (fun acc f =>
    match SQLiteCache.get cache (Engine.cacheKeyFor pack f) now ttl with
    | some cached =>
      { acc with hit_issues := acc.hit_issues ++ cached
                 cache_hits := acc.cache_hits + 1 }
    | none => { acc with uncached := acc.uncached ++ [f] })
    { hit_issues := [], uncached := [], cache_hits := 0 }

/-- Model of `Engine._deduplicate`: keep the first occurrence of each `issue_id`. -/
def Engine.deduplicate (issues : List Issue) : List Issue :=
  (issues.foldl
    (fun (acc : List (String × String × Nat × String) × List Issue) i =>
      if i.issue_id ∈ acc.1 then acc
      else (i.issue_id :: acc.1, acc.2 ++ [i]))
    ([], [])).2

structure AnalysisResult where
  issues : List Issue
  score : Int
  gate_passed : Bool
  fail_reasons : List String
  files_analyzed : Nat
  cache_hits : Nat
  llm_calls : Nat
deriving DecidableEq, Repr

/-- Model of `Engine.analyze`: the full pipeline over explicit cache state.  The
`meta` dict is carried as the three counters plus `files_analyzed`
(`duration_ms` is wall-clock and not modelled).  The slice
`uncached_files[:max_calls]` guarded by `if uncached_files and
max_calls > 0` equals `take max_llm_calls`. -/
def Engine.analyze (pack : ComposedPack)
    (getRules : String → String → List Rule)
    (provider : FileContext → List Rule → Except String (List Issue))
    (files : List FileContext) (rule_filter : List String)
    (disabled_rules : List String) (max_llm_calls : Nat)
    (cache : List CacheEntry) (now ttl : Nat) :
    AnalysisResult × List CacheEntry :=
  if files.isEmpty then
    ({ issues := [], score := 100, gate_passed := true, fail_reasons := []
       files_analyzed := 0, cache_hits := 0, llm_calls := 0 }, cache)
  else
    let part := Engine.partitionCache pack cache now ttl files
    let files_to_analyze := part.uncached.take max_llm_calls
    let st := files_to_analyze.foldl
      (Engine.processUncached pack getRules provider now)
      { cache := cache, all_issues := part.hit_issues, llm_calls := 0
        provider_calls := 0 }
    let issues1 :=
      if rule_filter.isEmpty then st.all_issues
      else st.all_issues.filter
        (fun i => rule_filter.any (fun fr => substrContains i.rule_id fr))
    let issues2 :=
      if disabled_rules.isEmpty then issues1
      else issues1.filter (fun i => decide (i.rule_id ∉ disabled_rules))
    let issues3 := Engine.deduplicate issues2
    let issues4 := Engine.limit_per_file issues3
    let score := calculate_score issues4
    let gr := check_gate issues4 DEFAULT_FAIL_LEVELS DEFAULT_SCORE_THRESHOLD
    ({ issues := issues4, score := score, gate_passed := gr.1
       fail_reasons := gr.2, files_analyzed := files.length
       cache_hits := part.cache_hits, llm_calls := st.llm_calls }, st.cache)

def rule0 : Rule :=
  { id := "python/rule0", level := IssueLevel.major, name := "Rule 0" }

def pack0 : ComposedPack :=
  { name := "python", version := "composed", rules := [rule0] }

def f0 : FileContext := { path := "test.py", content := "x = 1" }

/-- C1 counterexample: a run over one dispatched unit with zero applicable
rules.  Before the run the cache holds nothing under the unit's key; after
the run the key maps to the empty finding list and `llm_calls` is 1 — the
engine caches the applicability-empty result, so the cache state for that
key is **not** the same after the run as before. -/
theorem analyze_no_rules_cex :
    SQLiteCache.get [] (Engine.cacheKeyFor pack0 f0) 0 100 = none
    ∧ SQLiteCache.get (Engine.analyze pack0 (fun _ _ => [])
        (fun _ _ => .ok [mkIssue IssueLevel.major]) [f0] [] [] 10 [] 0 100).2
        (Engine.cacheKeyFor pack0 f0) 0 100 = some []
    ∧ (Engine.analyze pack0 (fun _ _ => [])
        (fun _ _ => .ok [mkIssue IssueLevel.major])
        [f0] [] [] 10 [] 0 100).1.llm_calls = 1 := by
  refine ⟨rfl, by decide, by decide⟩

/-- C1 (amended): for every file unit dispatched by `Engine.analyze` with
zero applicable rules, the unit contributes zero findings and no provider
call is made, but — unlike the claim — the loop body still counts the unit
in `llm_calls` and writes the empty finding list to the cache under the
unit's cache key (so the cache state for that key does change; see
`analyze_no_rules_cex`). -/
theorem analyze_no_rules_unit (pack : ComposedPack)
    (getRules : String → String → List Rule)
    (provider : FileContext → List Rule → Except String (List Issue))
    (f : FileContext) (st : DispatchState) (now : Nat)
    (h : getRules f.path f.content = []) :
    Engine.analyze_file_sync getRules provider f = ([], 0)
    ∧ Engine.processUncached pack getRules provider now st f
        = { cache := SQLiteCache.put st.cache (Engine.cacheKeyFor pack f) [] now
            all_issues := st.all_issues
            llm_calls := st.llm_calls + 1
            provider_calls := st.provider_calls } := by
  have h1 : Engine.analyze_file_sync getRules provider f = ([], 0) := by
    simp [Engine.analyze_file_sync, h]
  refine ⟨h1, ?_⟩
  simp [Engine.processUncached, h1]

/-- Witness for `analyze_no_rules_unit` at the concrete no-rules run. -/
theorem analyze_no_rules_unit_witness :
    Engine.analyze_file_sync (fun _ _ => [])
        (fun _ _ => .ok [mkIssue IssueLevel.major]) f0 = ([], 0)
    ∧ Engine.processUncached pack0 (fun _ _ => [])
        (fun _ _ => .ok [mkIssue IssueLevel.major]) 0
        { cache := [], all_issues := [], llm_calls := 0, provider_calls := 0 }
        f0
        = { cache := SQLiteCache.put [] (Engine.cacheKeyFor pack0 f0) [] 0
            all_issues := []
            llm_calls := 1
            provider_calls := 0 } :=
  analyze_no_rules_unit pack0 (fun _ _ => [])
    (fun _ _ => .ok [mkIssue IssueLevel.major]) f0
    { cache := [], all_issues := [], llm_calls := 0, provider_calls := 0 }
    0 rfl

/-- C9: for an uncached unit whose provider call raises, the unit degrades
to zero findings (the exception is caught inside `_analyze_file_sync`), yet
the loop body still counts the unit in `llm_calls` and writes the empty
finding list to the cache under the unit's key; within the TTL window a
later cache partition therefore treats the failed unit as a cache hit with
zero findings instead of re-analyzing it. -/
theorem provider_error_caches_empty (pack : ComposedPack)
    (getRules : String → String → List Rule)
    (provider : FileContext → List Rule → Except String (List Issue))
    (f : FileContext) (st : DispatchState) (now : Nat) (e : String)
    (hr : getRules f.path f.content ≠ [])
    (hp : provider f (getRules f.path f.content) = .error e) :
    Engine.analyze_file_sync getRules provider f = ([], 1)
    ∧ Engine.processUncached pack getRules provider now st f
        = { cache := SQLiteCache.put st.cache (Engine.cacheKeyFor pack f) [] now
            all_issues := st.all_issues
            llm_calls := st.llm_calls + 1
            provider_calls := st.provider_calls + 1 }
    ∧ (∀ now2 ttl : Nat, now2 - now ≤ ttl →
        SQLiteCache.get
          (Engine.processUncached pack getRules provider now st f).cache
          (Engine.cacheKeyFor pack f) now2 ttl = some [])
    ∧ (∀ now2 ttl : Nat, now2 - now ≤ ttl →
        Engine.partitionCache pack
          (Engine.processUncached pack getRules provider now st f).cache
          now2 ttl [f]
          = { hit_issues := [], uncached := [], cache_hits := 1 }) := by
  have h1 : Engine.analyze_file_sync getRules provider f = ([], 1) := by
    simp only [Engine.analyze_file_sync, hp]
    rw [if_neg (by simpa [List.isEmpty_iff] using hr)]
  have h2 : Engine.processUncached pack getRules provider now st f
      = { cache := SQLiteCache.put st.cache (Engine.cacheKeyFor pack f) [] now
          all_issues := st.all_issues
          llm_calls := st.llm_calls + 1
          provider_calls := st.provider_calls + 1 } := by
    simp [Engine.processUncached, h1]
  have h3 : ∀ now2 ttl : Nat, now2 - now ≤ ttl →
      SQLiteCache.get
        (Engine.processUncached pack getRules provider now st f).cache
        (Engine.cacheKeyFor pack f) now2 ttl = some [] := by
    intro now2 ttl httl
    rw [h2]
    exact SQLiteCache.get_put_same _ _ _ _ _ _ httl
  refine ⟨h1, h2, h3, ?_⟩
  intro now2 ttl httl
  simp [Engine.partitionCache, h3 now2 ttl httl]

/-- Witness for `provider_error_caches_empty`: a failing provider on a unit
with one applicable rule; afterwards the key holds the empty list. -/
theorem provider_error_caches_empty_witness :
    Engine.analyze_file_sync (fun _ _ => [rule0])
        (fun _ _ => .error "boom") f0 = ([], 1)
    ∧ SQLiteCache.get (Engine.processUncached pack0 (fun _ _ => [rule0])
        (fun _ _ => .error "boom") 5
        { cache := [], all_issues := [], llm_calls := 0, provider_calls := 0 }
        f0).cache
        (Engine.cacheKeyFor pack0 f0) 6 100 = some [] :=
  ⟨(provider_error_caches_empty pack0 (fun _ _ => [rule0])
      (fun _ _ => .error "boom") f0
      { cache := [], all_issues := [], llm_calls := 0, provider_calls := 0 }
      5 "boom" (by decide) rfl).1,
   (provider_error_caches_empty pack0 (fun _ _ => [rule0])
      (fun _ _ => .error "boom") f0
      { cache := [], all_issues := [], llm_calls := 0, provider_calls := 0 }
      5 "boom" (by decide) rfl).2.2.1 6 100 (by decide)⟩

lemma compose_ok_version (registry : List (String × Pack))
    (names : List String) (overlays : List Pack) (pack : ComposedPack)
    (h : PackCompositor.compose registry names overlays = .ok pack) :
    pack.version = "composed" := by
  unfold PackCompositor.compose at h
  cases hgp : get_packs registry names with
  | error e =>
    rw [hgp] at h
    exact absurd h (by simp)
  | ok packs =>
    rw [hgp] at h
    simp only [Except.ok.injEq] at h
    rw [← h]

/-- C10: every `ComposedPack` returned by `PackCompositor.compose` carries
the constant version string "composed"; consequently the rule-set-version
component of every cache key the engine constructs is identical across runs
and pack combinations, and two engine cache keys coincide exactly when their
content hashes and rules hashes coincide — invalidation depends only on
those two components. -/
theorem compose_version_spec :
    (∀ (registry : List (String × Pack)) (names : List String)
        (overlays : List Pack) (pack : ComposedPack),
        PackCompositor.compose registry names overlays = .ok pack →
        pack.version = "composed")
    ∧ (∀ (registry1 : List (String × Pack)) (names1 : List String)
        (overlays1 : List Pack) (pack1 : ComposedPack)
        (registry2 : List (String × Pack)) (names2 : List String)
        (overlays2 : List Pack) (pack2 : ComposedPack),
        PackCompositor.compose registry1 names1 overlays1 = .ok pack1 →
        PackCompositor.compose registry2 names2 overlays2 = .ok pack2 →
        ∀ f1 f2 : FileContext,
          (Engine.cacheKeyFor pack1 f1).ruleset_version
              = (Engine.cacheKeyFor pack2 f2).ruleset_version
          ∧ (Engine.cacheKeyFor pack1 f1 = Engine.cacheKeyFor pack2 f2
              ↔ ContentHasher.hash_content f1.content
                  = ContentHasher.hash_content f2.content
                ∧ ContentHasher.hash_rules (pack1.rules.map (fun r => r.id))
                  = ContentHasher.hash_rules (pack2.rules.map (fun r => r.id)))) := by
  refine ⟨compose_ok_version, ?_⟩
  intro registry1 names1 overlays1 pack1 registry2 names2 overlays2 pack2
    h1 h2 f1 f2
  have hv1 := compose_ok_version registry1 names1 overlays1 pack1 h1
  have hv2 := compose_ok_version registry2 names2 overlays2 pack2 h2
  constructor
  · simp [Engine.cacheKeyFor, hv1, hv2]
  · simp [Engine.cacheKeyFor, CacheKey.mk.injEq, hv1, hv2]

def registry0 : List (String × Pack) :=
  [("python", { name := "python", version := "0.1.0", rules := [rule0] })]

def composedPack0 : ComposedPack :=
  { name := "python", version := "composed", rules := [rule0] }

/-- Witness for `compose_version_spec` at a one-pack registry. -/
theorem compose_version_spec_witness :
    composedPack0.version = "composed"
    ∧ (Engine.cacheKeyFor composedPack0 f0).ruleset_version
        = (Engine.cacheKeyFor composedPack0 f0).ruleset_version :=
  ⟨compose_version_spec.1 registry0 ["python"] [] composedPack0 rfl,
   (compose_version_spec.2 registry0 ["python"] [] composedPack0
      registry0 ["python"] [] composedPack0 rfl rfl
      f0 f0).1⟩
